import Mathlib

/-!
Verification of the diagram-algebra core of the Hypergraph repository
(`src/temperley_lieb.rs`, `src/linear_combination.rs`) against its
natural-language specification.

Conventions of the shallow embedding:
* Rust `usize` is `Nat`; all arithmetic in the sources stays far from
  overflow, and `usize` subtraction appears only where the sources cannot
  underflow, matching `Nat` truncated subtraction.
* A Rust `Pair` is a `Nat × Nat`; a `PerfectMatching` is its `pairs`
  vector, a `List (Nat × Nat)`.
* A Rust `HashMap` (the representation of `LinearCombination`) is an
  association list whose key-value pairs are unique by key; `HashMap`
  equality (same key-value sets) is lookup-extensional equality `lcEq`.
* Functions that can only fail through `assert!`/`unwrap` (panics) are
  modelled with `Option` where that behaviour is claim-relevant
  (`pmFromList`), and as total functions elsewhere, with the theorems
  carrying the well-formedness hypotheses under which the sources cannot
  panic.
* `petgraph`'s `connected_components`/`has_path_connecting` on the glue
  graph are implemented by an executable class-merging labelling
  (`componentLabels`), proved below to decide exactly the
  equivalence closure of the edge relation, which is what the two
  `petgraph` queries compute.
-/

/-- Embedding of `Pair::sorted` / `Pair::sort` (temperley_lieb.rs:45-55):
canonical form of a pair puts the smaller endpoint first. -/
def pairSort (p : Nat × Nat) : Nat × Nat :=
  if p.1 < p.2 then p else (p.2, p.1)

/-- Embedding of `Pair::map` (temperley_lieb.rs:29-31). -/
def pairMap (f : Nat → Nat) (p : Nat × Nat) : Nat × Nat :=
  (f p.1, f p.2)

/-- Embedding of `Pair::contains` (temperley_lieb.rs:57-59): `x` lies
strictly between the two endpoints, in either orientation. -/
def pairContains (p : Nat × Nat) (x : Nat) : Bool :=
  (decide (x < p.1) && decide (p.2 < x)) || (decide (x < p.2) && decide (p.1 < x))

/-- Embedding of `Pair::flip_upside_down` (temperley_lieb.rs:41-43). -/
def pairFlip (source target : Nat) (p : Nat × Nat) : Nat × Nat :=
  pairMap (fun v => if v < source then v + target else v - source) p

/-- The derived lexicographic `Ord` on Rust `Pair`. -/
def pairLe : Nat × Nat → Nat × Nat → Prop :=
  fun a b => a.1 < b.1 ∨ (a.1 = b.1 ∧ a.2 ≤ b.2)

instance : DecidableRel pairLe := fun a b => by unfold pairLe; exact inferInstance

instance : IsTrans (Nat × Nat) pairLe := ⟨by intro a b c hab hbc; unfold pairLe at *; omega⟩

instance : IsTotal (Nat × Nat) pairLe := ⟨by intro a b; unfold pairLe; omega⟩

instance : IsAntisymm (Nat × Nat) pairLe :=
  ⟨by intro a b hab hba; unfold pairLe at *; rw [Prod.ext_iff]; omega⟩

/-- Embedding of `PerfectMatching::canonicalize` (temperley_lieb.rs:120-129):
sort each pair internally, then sort the pair list (Rust `Vec::sort`, a
stable sort, on the derived lexicographic order). -/
def canonicalize (l : List (Nat × Nat)) : List (Nat × Nat) :=
  List.insertionSort pairLe (l.map pairSort)

/-- The endpoint multiset of a pair list (`flat_map` over both components,
as in `from_iter`, temperley_lieb.rs:86-92). -/
def endpointsOf (l : List (Nat × Nat)) : List Nat :=
  l.flatMap (fun p => [p.1, p.2])

/-- The two assertions of `FromIterator for PerfectMatching`
(temperley_lieb.rs:83-98): every endpoint is `< 2n` and the set of
distinct endpoints has size `2n` (`n` the number of pairs); the `seen`
`HashSet`'s size is the number of distinct endpoints, `dedup.length`. -/
def pmValid (l : List (Nat × Nat)) : Bool :=
  (endpointsOf l).all (fun x => decide (x < 2 * l.length)) &&
    (endpointsOf l).dedup.length == 2 * l.length

/-- Embedding of `FromIterator for PerfectMatching` (temperley_lieb.rs:83-98).
The construction aborts (an `assert!` panic in the source, `none` here)
unless the pairs' endpoints are exactly `{0, …, 2n-1}`; on success the
list is canonicalized. -/
def pmFromList (l : List (Nat × Nat)) : Option (List (Nat × Nat)) :=
  if pmValid l then some (canonicalize l) else none

/-- Embedding of `PerfectMatching::shift_index` (temperley_lieb.rs:113-118):
every endpoint `≥ threshold` is increased by `shift_amount`.  (The
source's `collect` re-runs the `from_iter` canonicalization and asserts;
a monotone shift of a canonical matching is already canonical, and the
theorems below only apply `shiftIndex` where the source cannot panic.) -/
def shiftIndex (l : List (Nat × Nat)) (threshold shiftAmount : Nat) : List (Nat × Nat) :=
  l.map (pairMap (fun v => if threshold ≤ v then v + shiftAmount else v))

/-- Embedding of `PerfectMatching::flip_upside_down` (temperley_lieb.rs:131-143):
flip every pair, then re-canonicalize (the `collect`). -/
def pmFlip (l : List (Nat × Nat)) (source target : Nat) : List (Nat × Nat) :=
  canonicalize (l.map (pairFlip source target))

/-- `itertools`' `combinations(2)` followed by the early-return crossing
check: `anyPairs l f` holds iff some earlier element `a` and later
element `b` of `l` satisfy `f a b`. -/
def anyPairs {α : Type} (f : α → α → Bool) : List α → Bool
  | [] => false
  | x :: xs => xs.any (f x) || anyPairs f xs

/-- The crossing test applied to one `combinations(2)` item
(temperley_lieb.rs:153-162): the two blocks cross iff exactly one
endpoint of the second is contained in the first. -/
def crossingTest (a b : Nat × Nat) : Bool :=
  pairContains a b.1 != pairContains a b.2

/-- The blocked open interval of a same-side line
(temperley_lieb.rs:165-167): indices in `(1 + min)..max`. -/
def blockedOf (lines : List (Nat × Nat)) : List Nat :=
  lines.flatMap (fun p =>
    List.range' (1 + min p.1 p.2) (max p.1 p.2 - (1 + min p.1 p.2)))

/-- Rust `Iterator::is_sorted` on naturals: non-decreasing. -/
def isSortedLeB : List Nat → Bool
  | [] => true
  | [_] => true
  | a :: b :: rest => decide (a ≤ b) && isSortedLeB (b :: rest)

/-- Embedding of `PerfectMatching::non_crossing` (temperley_lieb.rs:145-208);
the second size argument is unused in the source, as it is here. -/
def nonCrossing (l : List (Nat × Nat)) (source : Nat) (_target : Nat) : Bool :=
  let sourceLines := l.filter (fun p => decide (p.1 < source) && decide (p.2 < source))
  if anyPairs crossingTest sourceLines then false else
  let targetLines := l.filter (fun p => decide (source ≤ p.1) && decide (source ≤ p.2))
  if anyPairs crossingTest targetLines then false else
  let blocked := blockedOf sourceLines ++ blockedOf targetLines
  let throughLines := (l.filter (fun p =>
      (decide (p.1 < source) && decide (source ≤ p.2)) ||
      (decide (p.2 < source) && decide (source ≤ p.1)))).map pairSort
  if throughLines.any (fun p => blocked.contains p.1 || blocked.contains p.2) then false else
  isSortedLeB (throughLines.map (fun p => p.2))

/-- Embedding of `ExtendedPerfectMatching` (temperley_lieb.rs:218-219):
a matching tagged with domain size, codomain size and delta power. -/
structure EPM where
  dom : Nat
  cod : Nat
  pow : Nat
  matching : List (Nat × Nat)
  deriving DecidableEq, Repr

/-- One step of the class-merging connected-component labelling: both
endpoint classes of the edge receive the label of the first endpoint's
class.  This is the executable realization of the union-find /
connectivity queries `petgraph` performs on the glue graph. -/
def mergeStep (labels : List Nat) (e : Nat × Nat) : List Nat :=
  let la := labels.getD e.1 0
  let lb := labels.getD e.2 0
  labels.map (fun l => if l = lb then la else l)

/-- Connected-component labels of the graph on nodes `0..n` with the given
edge list: nodes get equal labels exactly when they are connected
(proved below). -/
def componentLabels (n : Nat) (edges : List (Nat × Nat)) : List Nat :=
  edges.foldl mergeStep (List.range n)

/-- The node index of boundary point `i` of the glued diagram
(temperley_lieb.rs:282,284): `L`'s domain points keep their index, `R`'s
codomain points skip over `L`'s codomain block. -/
def nodeOfBoundary (selfDom selfCod : Nat) (i : Nat) : Nat :=
  if i < selfDom then i else i + selfCod

/-- One iteration of the greedy boundary-pairing loop of
`Mul for ExtendedPerfectMatching` (temperley_lieb.rs:278-293): skip an
already-paired boundary point, otherwise pair it with the first later
boundary point connected to it (the inner `for j` loop with its `break`)
and mark both as done. -/
def greedyStep (reach : Nat → Nat → Bool) (endpoints : Nat)
    (st : List Nat × List (Nat × Nat)) (i : Nat) : List Nat × List (Nat × Nat) :=
  if st.1.contains i then st
  else
    match (List.range' (i + 1) (endpoints - (i + 1))).find? (fun j => reach i j) with
    | some j => (i :: j :: st.1, st.2 ++ [(i, j)])
    | none => st

/-- The greedy boundary-pairing loop of `Mul for ExtendedPerfectMatching`
(temperley_lieb.rs:278-293): for each boundary point in increasing order
not yet paired, pair it with the first later boundary point connected to
it in the glue graph. -/
def greedyLoop (reach : Nat → Nat → Bool) (endpoints : Nat) : List (Nat × Nat) :=
  ((List.range endpoints).foldl (greedyStep reach endpoints)
    (([] : List Nat), ([] : List (Nat × Nat)))).2

/-- The edge list of the glue graph of `Mul for ExtendedPerfectMatching`
(temperley_lieb.rs:232-266) in the node index space `0..dL+cL+cR`: one
edge per pair of `L`'s matching, one per pair of `R`'s matching with both
endpoints shifted by `dL` (identifying `R`'s domain with `L`'s codomain). -/
def glueEdges (l r : EPM) : List (Nat × Nat) :=
  l.matching ++ r.matching.map (fun p => (p.1 + l.dom, p.2 + l.dom))

/-- Embedding of `Mul for ExtendedPerfectMatching` (temperley_lieb.rs:228-297).
The source's `assert_eq!(rhs_dom, self_cod)` and the node-coverage
asserts are panics that cannot fire for well-formed inputs; the theorems
below carry the corresponding hypotheses.  `connected_components` is the
number of distinct component labels; `has_path_connecting i j` is
label-equality. -/
def mulEPM (l r : EPM) : EPM :=
  let n := l.dom + l.cod + r.cod
  let labels := componentLabels n (glueEdges l r)
  let reach := fun i j =>
    labels.getD (nodeOfBoundary l.dom l.cod i) 0 == labels.getD (nodeOfBoundary l.dom l.cod j) 0
  let endpoints := l.dom + r.cod
  let finalMatching := greedyLoop reach endpoints
  { dom := l.dom
    cod := r.cod
    pow := labels.dedup.length + l.pow + r.pow - endpoints / 2
    matching := canonicalize finalMatching }

section LinearCombination

variable {K K2 C : Type} [DecidableEq K] [DecidableEq K2] [DecidableEq C]

/-- Lookup in the association-list model of `HashMap<Target, Coeffs>`. -/
def lcLookup (l : List (K × C)) (k : K) : Option C :=
  match l with
  | [] => none
  | kc :: rest => if kc.1 = k then some kc.2 else lcLookup rest k

/-- `new_map.entry(k).and_modify(|x| *x += v).or_insert(v)`
(linear_combination.rs:30-37): combine with the existing coefficient via
the ring addition, or insert the value fresh. -/
def lcInsertAdd [Add C] (l : List (K × C)) (k : K) (v : C) : List (K × C) :=
  if l.any (fun kc => kc.1 = k) then
    l.map (fun kc => if kc.1 = k then (kc.1, kc.2 + v) else kc)
  else
    l ++ [(k, v)]

/-- Embedding of `Add`/`AddAssign` for `LinearCombination`
(linear_combination.rs:23-53). -/
def lcAdd [Add C] (a b : List (K × C)) : List (K × C) :=
  b.foldl (fun acc kc => lcInsertAdd acc kc.1 kc.2) a

/-- Embedding of `Neg` for `LinearCombination` (linear_combination.rs:73-86). -/
def lcNeg [Neg C] (a : List (K × C)) : List (K × C) :=
  a.map (fun kc => (kc.1, -kc.2))

/-- Embedding of `Mul<Coeffs>`/`MulAssign<Coeffs>` for `LinearCombination`
(linear_combination.rs:88-101,121-130): scale every coefficient on the
right. -/
def lcScale [Mul C] (c : C) (a : List (K × C)) : List (K × C) :=
  a.map (fun kc => (kc.1, kc.2 * c))

/-- Embedding of `LinearCombination::singleton` (linear_combination.rs:160-162). -/
def lcSingleton [One C] (k : K) : List (K × C) :=
  [(k, 1)]

/-- Embedding of `LinearCombination::simplify` (linear_combination.rs:181-185):
retain the entries whose coefficient is not zero. -/
def lcSimplify [Zero C] (a : List (K × C)) : List (K × C) :=
  a.filter (fun kc => decide (¬ kc.2 = 0))

/-- Embedding of `LinearCombination::change_coeffs` (linear_combination.rs:164-171). -/
def lcChangeCoeffs (f : C → C) (a : List (K × C)) : List (K × C) :=
  a.map (fun kc => (kc.1, f kc.2))

/-- Embedding of `LinearCombination::all_terms_satisfy` (linear_combination.rs:173-178). -/
def lcAllKeys (p : K → Bool) (a : List (K × C)) : Bool :=
  a.all (fun kc => p kc.1)

/-- Embedding of `LinearCombination::linear_combine` and of `Mul` for
`LinearCombination` (linear_combination.rs:103-119,133-153), which share
one algorithm: for every pair of terms, add `singleton (f k1 k2)` scaled
by `c1 * c2` into the accumulator. -/
def lcCombine [One C] [Add C] [Mul C] (a : List (K × C)) (b : List (K2 × C))
    {K3 : Type} [DecidableEq K3] (f : K → K2 → K3) : List (K3 × C) :=
  a.foldl
    (fun acc kc1 =>
      b.foldl (fun acc2 kc2 => lcAdd acc2 (lcScale (kc1.2 * kc2.2) (lcSingleton (f kc1.1 kc2.1))))
        acc)
    []

/-- Embedding of `LinearCombination::linearly_extend`
(linear_combination.rs:208-221): map the keys, summing coefficients of
colliding images. -/
def lcMapKeysAdd [Add C] (f : K → K2) (a : List (K × C)) : List (K2 × C) :=
  a.foldl (fun acc kc => lcInsertAdd acc (f kc.1) kc.2) []

/-- Lookup-extensional equality: the embedding of `HashMap` equality
(two maps are `==` iff they hold the same key-value pairs). -/
def lcEq (a b : List (K × C)) : Prop :=
  ∀ k, lcLookup a k = lcLookup b k

/-- Boolean `HashMap` equality, decidable by scanning both key sets. -/
def lcEqB (a b : List (K × C)) : Bool :=
  a.all (fun kc => decide (lcLookup a kc.1 = lcLookup b kc.1)) &&
    b.all (fun kc => decide (lcLookup a kc.1 = lcLookup b kc.1))

end LinearCombination

section Brauer

variable {C : Type} [DecidableEq C] [CommRing C]

/-- Embedding of `BrauerMorphism<T>` (temperley_lieb.rs:300-315): a linear
combination of `(delta_pow, matching)` terms with common source and
target and the conservative `is_def_tl` flag. -/
structure BrauerMorphism (C : Type) where
  diagram : List ((Nat × List (Nat × Nat)) × C)
  source : Nat
  target : Nat
  is_def_tl : Bool
  deriving DecidableEq

/-- Embedding of `PartialEq for BrauerMorphism` (temperley_lieb.rs:317-324):
compare the formal sum (as a map), the source and the target; the
`is_def_tl` flag does not participate. -/
def brEqB (f g : BrauerMorphism C) : Bool :=
  lcEqB f.diagram g.diagram && f.source == g.source && f.target == g.target

/-- The identity matching on `n`: pairs `i ↔ i+n` (temperley_lieb.rs:345),
canonicalized by the `collect`. -/
def idMatching (n : Nat) : List (Nat × Nat) :=
  canonicalize ((List.range n).map (fun i => (i, i + n)))

/-- Embedding of `HasIdentity for BrauerMorphism` (temperley_lieb.rs:340-353). -/
def identityB (n : Nat) : BrauerMorphism C :=
  { diagram := lcSingleton (0, idMatching n)
    source := n
    target := n
    is_def_tl := true }

/-- Modelled from the spec: the `Composable` trait's `composable` check
lives in `category.rs`, which is not among the sources; §6 and §4.4 of
the specification state that it fails with `CompositionArityMismatch`
unless `self.codomain() == other.domain()`. -/
def composableB (f g : BrauerMorphism C) : Except String Unit :=
  if f.target = g.source then Except.ok () else Except.error "CompositionArityMismatch"

/-- Embedding of `Composable::compose for BrauerMorphism`
(temperley_lieb.rs:359-383): check composability, tag every term with its
domain/codomain (`inj_linearly_extend`, whose injectivity assert cannot
fire since the tags are constant across terms), multiply the extended
linear combinations (each pair of terms combined by `mulEPM`), and drop
the tags again (`linearly_extend`, summing collisions). -/
def composeB (f g : BrauerMorphism C) : Except String (BrauerMorphism C) :=
  match composableB f g with
  | Except.error e => Except.error e
  | Except.ok _ =>
    let ls := f.diagram.map (fun kc => (EPM.mk f.source f.target kc.1.1 kc.1.2, kc.2))
    let rs := g.diagram.map (fun kc => (EPM.mk g.source g.target kc.1.1 kc.1.2, kc.2))
    let product := lcCombine ls rs mulEPM
    Except.ok
      { diagram := lcMapKeysAdd (fun e => (e.pow, e.matching)) product
        source := f.source
        target := g.target
        is_def_tl := f.is_def_tl && g.is_def_tl }

/-- Embedding of `Monoidal::monoidal for BrauerMorphism`
(temperley_lieb.rs:398-417), returning the mutated `self`: sizes add, the
flag is the conjunction, and each pair of terms is combined by stacking
the shifted matchings and adding the delta powers. -/
def monoidalB (f g : BrauerMorphism C) : BrauerMorphism C :=
  let oldDomain := f.source
  let oldCodomain := f.target
  let otherDomain := g.source
  let newDomain := f.source + g.source
  { diagram :=
      lcCombine f.diagram g.diagram (fun k1 k2 =>
        let newMatching := shiftIndex k1.2 oldDomain otherDomain
        let otherShifted := shiftIndex (shiftIndex k2.2 0 oldDomain) newDomain oldCodomain
        (k1.1 + k2.1, canonicalize (newMatching ++ otherShifted)))
    source := f.source + g.source
    target := f.target + g.target
    is_def_tl := f.is_def_tl && g.is_def_tl }

/-- Embedding of `BrauerMorphism::temperley_lieb_gens`'s generator at
index `i` (temperley_lieb.rs:430-457), with the `collect`'s
canonicalization. -/
def tlGen (n i : Nat) : BrauerMorphism C :=
  { diagram :=
      lcSingleton
        (0,
          canonicalize
            ((List.range n).map (fun j =>
              if j = i then (i, i + 1)
              else if j = i + 1 then (i + n, i + 1 + n)
              else (j, j + n))))
    source := n
    target := n
    is_def_tl := true }

/-- Embedding of `BrauerMorphism::temperley_lieb_gens` (temperley_lieb.rs:430-457). -/
def temperleyLiebGens (n : Nat) : List (BrauerMorphism C) :=
  (List.range (n - 1)).map (tlGen n)

/-- Embedding of `BrauerMorphism::symmetric_alg_gens`'s generator at index
`i` (temperley_lieb.rs:460-489). -/
def symGen (n i : Nat) : BrauerMorphism C :=
  { diagram :=
      lcSingleton
        (0,
          canonicalize
            ((List.range n).map (fun j =>
              if j = i then (i, i + n + 1)
              else if j = i + 1 then (i + 1, i + n)
              else (j, j + n))))
    source := n
    target := n
    is_def_tl := false }

/-- Embedding of `BrauerMorphism::delta_polynomial` (temperley_lieb.rs:491-512). -/
def deltaPolynomial (coeffs : List C) : BrauerMorphism C :=
  let zeroth := coeffs.headD 0
  let start := lcScale zeroth (lcSingleton ((0, ([] : List (Nat × Nat)))))
  { diagram :=
      (coeffs.enum.drop 1).foldl
        (fun acc ic => lcAdd acc (lcScale ic.2 (lcSingleton ((ic.1, ([] : List (Nat × Nat)))))))
        start
    source := 0
    target := 0
    is_def_tl := true }

/-- Embedding of `BrauerMorphism::dagger` (temperley_lieb.rs:515-533): flip
every term's matching (`inj_linearly_extend`, injective for well-formed
inputs since the flip is invertible there), conjugate the coefficients,
and swap source with target. -/
def daggerB (f : BrauerMorphism C) (conj : C → C) : BrauerMorphism C :=
  { diagram :=
      lcChangeCoeffs conj
        (f.diagram.map (fun kc => ((kc.1.1, pmFlip kc.1.2 f.source f.target), kc.2)))
    source := f.target
    target := f.source
    is_def_tl := f.is_def_tl }

/-- Embedding of `BrauerMorphism::set_is_tl` (temperley_lieb.rs:536-548):
no-op when the flag is already set, else recompute it as the conjunction
of the non-crossing test over all terms. -/
def setIsTl (f : BrauerMorphism C) : BrauerMorphism C :=
  if f.is_def_tl then f
  else { f with is_def_tl := lcAllKeys (fun k => nonCrossing k.2 f.source f.target) f.diagram }

/-- Embedding of the free function `simplify` (temperley_lieb.rs:551-559). -/
def simplifyB (f : BrauerMorphism C) : BrauerMorphism C :=
  { f with diagram := lcSimplify f.diagram }

end Brauer

/-! ### Mathematical specification of glue-graph connectivity

`petgraph`'s `has_path_connecting` and `connected_components` answer
connectivity questions about the glue graph.  Their mathematical
specification: the equivalence closure of the edge relation, and the
number of its classes on the node set. -/

/-- The symmetric edge relation of an edge list. -/
def edgeRel (edges : List (Nat × Nat)) : Nat → Nat → Prop :=
  fun a b => (a, b) ∈ edges ∨ (b, a) ∈ edges

/-- Connectivity in the graph with the given edge list: the equivalence
closure of the edge relation — what `has_path_connecting` decides. -/
def conn (edges : List (Nat × Nat)) : Nat → Nat → Prop :=
  Relation.EqvGen (edgeRel edges)

/-- `conn` as an equivalence on the node set `Fin n`. -/
def connSetoid (n : Nat) (edges : List (Nat × Nat)) : Setoid (Fin n) :=
  ⟨fun i j => conn edges i.val j.val,
   ⟨fun i => Relation.EqvGen.refl i.val,
    fun h => Relation.EqvGen.symm _ _ h,
    fun h1 h2 => Relation.EqvGen.trans _ _ _ h1 h2⟩⟩

/-- The number of connected components of the graph on nodes `0..n` with
the given edge list: the number of `conn`-equivalence classes — what
`connected_components` returns. -/
noncomputable def glueComponentCount (n : Nat) (edges : List (Nat × Nat)) : Nat :=
  Nat.card (Quotient (connSetoid n edges))

/-- Invariant of the class-merging labelling: after processing the edge
list `E`, the labels are in range and two nodes carry equal labels
exactly when `E` connects them. -/
def GoodLabels (n : Nat) (E : List (Nat × Nat)) (labels : List Nat) : Prop :=
  labels.length = n ∧
  (∀ i, i < n → labels.getD i 0 < n) ∧
  (∀ i j, i < n → j < n → (labels.getD i 0 = labels.getD j 0 ↔ conn E i j))

/-! ### Basic lemmas about the embedded operations -/

theorem pairSort_eq_self {p : Nat × Nat} (h : p.1 ≤ p.2) : pairSort p = p := by
  unfold pairSort
  split
  · rfl
  · rw [Prod.ext_iff]; omega

theorem canonicalize_eq_self {l : List (Nat × Nat)} (h1 : ∀ p ∈ l, p.1 ≤ p.2)
    (h2 : List.Sorted pairLe l) : canonicalize l = l := by
  unfold canonicalize
  have hmap : l.map pairSort = l := by
    have := List.map_congr_left (l := l) (f := pairSort) (g := id)
      (fun p hp => pairSort_eq_self (h1 p hp))
    simpa using this
  rw [hmap]
  exact h2.insertionSort_eq

theorem canonicalize_perm_of_perm {l l' : List (Nat × Nat)} (h : l.Perm l') :
    canonicalize l = canonicalize l' := by
  unfold canonicalize
  refine List.eq_of_perm_of_sorted ?_ (List.sorted_insertionSort pairLe _)
    (List.sorted_insertionSort pairLe _)
  exact (List.perm_insertionSort _ _).trans ((h.map pairSort).trans
    (List.perm_insertionSort _ _).symm)

theorem canonicalize_perm (l : List (Nat × Nat)) : (canonicalize l).Perm (l.map pairSort) :=
  List.perm_insertionSort _ _

theorem idMatching_eq (n : Nat) : idMatching n = (List.range n).map (fun i => (i, i + n)) := by
  refine canonicalize_eq_self ?_ ?_
  · intro p hp
    obtain ⟨i, _, rfl⟩ := List.mem_map.mp hp
    omega
  · exact List.Pairwise.map _ (fun a b h => by unfold pairLe; omega) (List.pairwise_lt_range n)

theorem isSortedLeB_of_sorted : ∀ {l : List Nat}, List.Sorted (· ≤ ·) l → isSortedLeB l = true := by
  intro l
  induction l with
  | nil => intro; rfl
  | cons a t ih =>
    intro h
    rw [List.sorted_cons] at h
    cases t with
    | nil => rfl
    | cons b t2 =>
      rw [isSortedLeB, Bool.and_eq_true]
      exact ⟨decide_eq_true (h.1 b (List.mem_cons_self _ _)), ih h.2⟩

theorem anyPairs_of_mem {α : Type} (f : α → α → Bool) {a b : α} :
    ∀ {l : List α}, a ∈ l → b ∈ l → a ≠ b → f a b = true → f b a = true →
      anyPairs f l = true := by
  intro l
  induction l with
  | nil => intro h; cases h
  | cons x xs ih =>
    intro ha hb hne hfab hfba
    rw [anyPairs, Bool.or_eq_true]
    rcases List.mem_cons.mp ha with rfl | ha'
    · have hb' : b ∈ xs := by
        rcases List.mem_cons.mp hb with rfl | hb'
        · exact absurd rfl hne
        · exact hb'
      exact Or.inl (List.any_eq_true.mpr ⟨b, hb', hfab⟩)
    · rcases List.mem_cons.mp hb with rfl | hb'
      · exact Or.inl (List.any_eq_true.mpr ⟨a, ha', hfba⟩)
      · exact Or.inr (ih ha' hb' hne hfab hfba)

theorem lcLookup_eq_none {K C : Type} [DecidableEq K] {l : List (K × C)} {k : K}
    (h : ∀ kc ∈ l, kc.1 ≠ k) : lcLookup l k = none := by
  induction l with
  | nil => rfl
  | cons kc rest ih =>
    rw [lcLookup, if_neg (h kc (List.mem_cons_self _ _))]
    exact ih (fun kc' h' => h kc' (List.mem_cons_of_mem _ h'))

theorem lcEqB_iff {K C : Type} [DecidableEq K] [DecidableEq C] (a b : List (K × C)) :
    lcEqB a b = true ↔ lcEq a b := by
  unfold lcEqB lcEq
  rw [Bool.and_eq_true, List.all_eq_true, List.all_eq_true]
  constructor
  · intro h k
    by_cases hka : ∃ kc ∈ a, kc.1 = k
    · obtain ⟨kc, hm, hk⟩ := hka
      have := of_decide_eq_true (h.1 kc hm)
      rwa [hk] at this
    · by_cases hkb : ∃ kc ∈ b, kc.1 = k
      · obtain ⟨kc, hm, hk⟩ := hkb
        have := of_decide_eq_true (h.2 kc hm)
        rwa [hk] at this
      · push_neg at hka hkb
        rw [lcLookup_eq_none hka, lcLookup_eq_none hkb]
  · intro h
    exact ⟨fun kc _ => decide_eq_true (h kc.1), fun kc _ => decide_eq_true (h kc.1)⟩

/-! ### Lemmas about matching construction (for C6) -/

theorem endpointsOf_length (l : List (Nat × Nat)) : (endpointsOf l).length = 2 * l.length := by
  induction l with
  | nil => rfl
  | cons p t ih =>
    unfold endpointsOf at *
    rw [List.flatMap_cons, List.length_append, ih, List.length_cons]
    simp
    omega

theorem endpointsOf_perm {l l' : List (Nat × Nat)} (h : l.Perm l') :
    (endpointsOf l).Perm (endpointsOf l') :=
  List.Perm.flatMap_right _ h

theorem endpointsOf_map_pairSort (l : List (Nat × Nat)) :
    (endpointsOf (l.map pairSort)).Perm (endpointsOf l) := by
  induction l with
  | nil => exact List.Perm.refl _
  | cons p t ih =>
    rw [List.map_cons]
    unfold endpointsOf at *
    rw [List.flatMap_cons, List.flatMap_cons]
    refine List.Perm.append ?_ ih
    unfold pairSort
    split
    · exact List.Perm.refl _
    · exact List.Perm.swap _ _ _

theorem endpointsOf_canonicalize (l : List (Nat × Nat)) :
    (endpointsOf (canonicalize l)).Perm (endpointsOf l) :=
  (endpointsOf_perm (canonicalize_perm l)).trans (endpointsOf_map_pairSort l)

theorem pmValid_iff (l : List (Nat × Nat)) :
    pmValid l = true ↔
      ((endpointsOf l).Nodup ∧ ∀ x, x ∈ endpointsOf l ↔ x < 2 * l.length) := by
  unfold pmValid
  rw [Bool.and_eq_true, List.all_eq_true, beq_iff_eq]
  constructor
  · rintro ⟨hb, hd⟩
    have hnodup : (endpointsOf l).Nodup := by
      have hlen : (endpointsOf l).dedup.length = (endpointsOf l).length := by
        rw [hd, endpointsOf_length]
      rw [← (List.dedup_sublist (endpointsOf l)).eq_of_length hlen]
      exact List.nodup_dedup _
    refine ⟨hnodup, fun x => ⟨fun hx => of_decide_eq_true (hb x hx), fun hx => ?_⟩⟩
    have hsubset : (endpointsOf l).toFinset ⊆ Finset.range (2 * l.length) := by
      intro y hy
      rw [Finset.mem_range]
      exact of_decide_eq_true (hb y (List.mem_toFinset.mp hy))
    have hcard : (Finset.range (2 * l.length)).card ≤ (endpointsOf l).toFinset.card := by
      rw [Finset.card_range, List.card_toFinset, hd]
    have heq := Finset.eq_of_subset_of_card_le hsubset hcard
    have : x ∈ (endpointsOf l).toFinset := by
      rw [heq, Finset.mem_range]
      exact hx
    exact List.mem_toFinset.mp this
  · rintro ⟨hnodup, hmem⟩
    refine ⟨fun x hx => decide_eq_true ((hmem x).mp hx), ?_⟩
    rw [List.dedup_eq_self.mpr hnodup, endpointsOf_length]

/-! ### Claim C6: matching construction -/

/-- C6 counterexample: the claim states that a malformed construction
fails with a `MalformedMatchingError` returned to the caller as an
explicit result value.  It does not: `FromIterator for PerfectMatching`
(temperley_lieb.rs:83-98) returns plain `Self` — there is no error
channel in its type and no `MalformedMatchingError` type anywhere in
the sources — and signals the violation with `assert!`, a panic.  At
the malformed input `[(0,0)]` (endpoint `0` repeated, endpoint `1`
missing) the embedding of the construction therefore yields no result
value at all: it is `none` (the abort), and in particular `some m` — a
value handed back to the caller — for no `m`. -/
theorem matching_construction_cex :
    pmFromList [(0, 0)] = none ∧ ∀ m, ¬ pmFromList [(0, 0)] = some m := by
  refine ⟨rfl, fun m h => ?_⟩
  rw [show pmFromList [(0, 0)] = none from rfl] at h
  exact Option.noConfusion h

/-- C6 (amended): Constructing a matching from a pair list fails via an
assertion failure — a panic, modelled as `none`; no error value is
returned to the caller — exactly when the endpoints are not
`{0,…,2n-1}` each exactly once; a successful construction covers
`[0, 2n)` exactly once. -/
theorem matching_construction_spec (l : List (Nat × Nat)) :
    (pmFromList l = none ↔
      ¬ ((endpointsOf l).Nodup ∧ ∀ x, x ∈ endpointsOf l ↔ x < 2 * l.length)) ∧
    (∀ m, pmFromList l = some m →
      ∀ x, (endpointsOf m).count x = if x < 2 * l.length then 1 else 0) := by
  constructor
  · unfold pmFromList
    by_cases h : pmValid l = true
    · rw [if_pos h]
      simp only [reduceCtorEq, false_iff, not_not]
      exact (pmValid_iff l).mp h
    · rw [if_neg h]
      simp only [true_iff]
      intro hcontra
      exact h ((pmValid_iff l).mpr hcontra)
  · intro m hm x
    unfold pmFromList at hm
    by_cases h : pmValid l = true
    · rw [if_pos h] at hm
      obtain rfl : canonicalize l = m := Option.some_injective _ hm
      obtain ⟨hnodup, hmem⟩ := (pmValid_iff l).mp h
      rw [(endpointsOf_canonicalize l).count_eq]
      by_cases hx : x < 2 * l.length
      · rw [if_pos hx]
        exact List.count_eq_one_of_mem hnodup ((hmem x).mpr hx)
      · rw [if_neg hx]
        exact List.count_eq_zero_of_not_mem (fun hc => hx ((hmem x).mp hc))
    · rw [if_neg h] at hm
      cases hm

/-- Witness for C6 at the valid input `[(0,1)]`. -/
theorem matching_construction_spec_witness :
    (endpointsOf [(0, 1)]).count 0 =
      if 0 < 2 * ([(0, 1)] : List (Nat × Nat)).length then 1 else 0 :=
  (matching_construction_spec [(0, 1)]).2 [(0, 1)] (by decide) 0

/-- On matching arities, `compose` succeeds, and its result is the
source's record (temperley_lieb.rs:377-382) built from the tagged
bilinear product of the two diagrams. -/
theorem composeB_ok {C : Type} [DecidableEq C] [CommRing C] (f g : BrauerMorphism C)
    (h : f.target = g.source) :
    composeB f g = Except.ok
      { diagram :=
          lcMapKeysAdd (fun e => (e.pow, e.matching))
            (lcCombine (f.diagram.map (fun kc => (EPM.mk f.source f.target kc.1.1 kc.1.2, kc.2)))
              (g.diagram.map (fun kc => (EPM.mk g.source g.target kc.1.1 kc.1.2, kc.2))) mulEPM)
        source := f.source
        target := g.target
        is_def_tl := f.is_def_tl && g.is_def_tl } := by
  have hc : composableB f g = Except.ok () := by
    unfold composableB
    rw [if_pos h]
  simp only [composeB]
  rw [hc]

/-! ### Claim C5: composition arity mismatch -/

/-- C5: `compose` fails with the `CompositionArityMismatch` error exactly
when `self.target ≠ other.source`; on matching arities it returns a
morphism.  (The embedding is pure, so the inputs are never modified; the
mismatch is reported as an explicit `Except.error`, before any term is
touched, as in the source.) -/
theorem compose_mismatch_iff {C : Type} [DecidableEq C] [CommRing C] :
    ∀ f g : BrauerMorphism C,
      (f.target ≠ g.source → composeB f g = Except.error "CompositionArityMismatch") ∧
      (f.target = g.source → ∃ m, composeB f g = Except.ok m) := by
  intro f g
  constructor
  · intro h
    have hc : composableB f g = Except.error "CompositionArityMismatch" := by
      unfold composableB
      rw [if_neg h]
    simp only [composeB]
    rw [hc]
  · intro h
    exact ⟨_, composeB_ok f g h⟩

/-- Witness for C5 at a concrete arity mismatch. -/
theorem compose_mismatch_iff_witness :
    composeB (identityB 2 : BrauerMorphism ℤ) (identityB 3) =
      Except.error "CompositionArityMismatch" :=
  (compose_mismatch_iff _ _).1 (by decide)

/-! ### Claim C9: the `is_def_tl` flag is not monotone under tensor -/

/-- C9 counterexample: an in-place tensor does downgrade the flag.
`delta_polynomial [1]` carries `is_def_tl = true`, yet tensoring it with
a symmetric generator (whose flag is `false`) leaves the mutated
receiver with `is_def_tl = false` — the source computes
`self.is_def_tl &= other.is_def_tl` (temperley_lieb.rs:405). -/
theorem flag_downgrade_cex :
    (deltaPolynomial [1] : BrauerMorphism ℤ).is_def_tl = true ∧
    (monoidalB (deltaPolynomial [1] : BrauerMorphism ℤ) (symGen 2 0)).is_def_tl = false :=
  ⟨rfl, rfl⟩

/-- C9 amended: `set_is_tl` is a no-op on a `true` flag (and in general
never lowers it), `dagger` preserves the flag, while `compose` and the
in-place `tensor` both set the result's flag to the conjunction of the
two inputs' flags — so a tensor with a `false`-flagged operand lowers a
`true`-flagged receiver. -/
theorem flag_rules {C : Type} [DecidableEq C] [CommRing C] :
    ∀ (f g : BrauerMorphism C) (conj : C → C),
      (f.is_def_tl = true → setIsTl f = f) ∧
      (daggerB f conj).is_def_tl = f.is_def_tl ∧
      (monoidalB f g).is_def_tl = (f.is_def_tl && g.is_def_tl) ∧
      (f.target = g.source →
        ∃ m, composeB f g = Except.ok m ∧ m.is_def_tl = (f.is_def_tl && g.is_def_tl)) := by
  intro f g conj
  refine ⟨fun h => ?_, rfl, rfl, fun h => ?_⟩
  · unfold setIsTl
    rw [if_pos h]
  · exact ⟨_, composeB_ok f g h, rfl⟩

/-- Witness for C9's amended statement at concrete inputs. -/
theorem flag_rules_witness :
    setIsTl (identityB 1 : BrauerMorphism ℤ) = identityB 1 ∧
    ∃ m, composeB (identityB 1 : BrauerMorphism ℤ) (identityB 1) = Except.ok m ∧
      m.is_def_tl = ((identityB 1 : BrauerMorphism ℤ).is_def_tl &&
        (identityB 1 : BrauerMorphism ℤ).is_def_tl) :=
  ⟨(flag_rules (identityB 1) (identityB 1) id).1 rfl,
   (flag_rules (identityB 1) (identityB 1) id).2.2.2 rfl⟩

/-! ### Claim C10: morphism equality ignores the flag -/

/-- C10: `PartialEq for BrauerMorphism` compares exactly the formal sum
(as a map), the source size and the target size, and is insensitive to
the `is_def_tl` flag. -/
theorem brauer_eq_ignores_flag {C : Type} [DecidableEq C] :
    ∀ (f g : BrauerMorphism C) (b1 b2 : Bool),
      (brEqB f g = true ↔
        (lcEq f.diagram g.diagram ∧ f.source = g.source ∧ f.target = g.target)) ∧
      brEqB { f with is_def_tl := b1 } { g with is_def_tl := b2 } = brEqB f g := by
  intro f g b1 b2
  refine ⟨?_, rfl⟩
  unfold brEqB
  rw [Bool.and_eq_true, Bool.and_eq_true, lcEqB_iff, beq_iff_eq, beq_iff_eq, and_assoc]

/-! ### Claim C4: the non-crossing decision procedure -/

/-- C4: the identity matching (pairs `i ↔ i+n`) is reported non-crossing
for every `n`, and any matching containing the domain-domain pairs
`(0,2)` and `(1,3)` with domain size at least 4 is reported crossing. -/
theorem non_crossing_spec :
    ∀ (n source target : Nat) (m : List (Nat × Nat)),
      nonCrossing (idMatching n) n n = true ∧
      (4 ≤ source → (0, 2) ∈ m → (1, 3) ∈ m → nonCrossing m source target = false) := by
  intro n source target m
  constructor
  · rw [idMatching_eq]
    have hs : ((List.range n).map (fun i => (i, i + n))).filter
        (fun p => decide (p.1 < n) && decide (p.2 < n)) = [] := by
      rw [List.filter_eq_nil_iff]
      intro p hp
      obtain ⟨i, _, rfl⟩ := List.mem_map.mp hp
      simp
    have ht : ((List.range n).map (fun i => (i, i + n))).filter
        (fun p => decide (n ≤ p.1) && decide (n ≤ p.2)) = [] := by
      rw [List.filter_eq_nil_iff]
      intro p hp
      obtain ⟨i, hi, rfl⟩ := List.mem_map.mp hp
      rw [List.mem_range] at hi
      simp
      omega
    have hthrough : ((List.range n).map (fun i => (i, i + n))).filter
        (fun p => (decide (p.1 < n) && decide (n ≤ p.2)) ||
          (decide (p.2 < n) && decide (n ≤ p.1))) = (List.range n).map (fun i => (i, i + n)) := by
      rw [List.filter_eq_self]
      intro p hp
      obtain ⟨i, hi, rfl⟩ := List.mem_map.mp hp
      rw [List.mem_range] at hi
      simp
      omega
    have hsort : ((List.range n).map (fun i => (i, i + n))).map pairSort =
        (List.range n).map (fun i => (i, i + n)) := by
      refine List.map_congr_left ?_ |>.trans ((List.range n).map _).map_id
      intro p hp
      obtain ⟨i, hi, rfl⟩ := List.mem_map.mp hp
      rw [List.mem_range] at hi
      exact pairSort_eq_self (by omega)
    have hfinal : isSortedLeB (List.map ((fun p => (p.2 : Nat)) ∘ fun i => (i, i + n))
        (List.range n)) = true := by
      refine isSortedLeB_of_sorted ?_
      refine List.Pairwise.map _ (fun a b h => ?_) (List.pairwise_lt_range n)
      simp only [Function.comp]
      omega
    unfold nonCrossing
    rw [hs, ht, hthrough, hsort]
    simp [anyPairs, blockedOf, hfinal]
  · intro hsource h02 h13
    have h1 : (0, 2) ∈ m.filter (fun p => decide (p.1 < source) && decide (p.2 < source)) :=
      List.mem_filter.mpr ⟨h02, by simp; omega⟩
    have h2 : (1, 3) ∈ m.filter (fun p => decide (p.1 < source) && decide (p.2 < source)) :=
      List.mem_filter.mpr ⟨h13, by simp; omega⟩
    have hany := anyPairs_of_mem crossingTest h1 h2 (by decide) (by decide) (by decide)
    unfold nonCrossing
    rw [if_pos (by rw [hany])]

/-- Witness for C4 at `n = 2`, and the crossing matching `[(0,2),(1,3)]`
with domain size 4. -/
theorem non_crossing_spec_witness :
    nonCrossing (idMatching 2) 2 2 = true ∧
    nonCrossing [(0, 2), (1, 3)] 4 0 = false :=
  ⟨(non_crossing_spec 2 4 0 [(0, 2), (1, 3)]).1,
   (non_crossing_spec 2 4 0 [(0, 2), (1, 3)]).2 (by decide) (by decide) (by decide)⟩

/-! ### Claim C2: Temperley–Lieb relations at `n = 5` -/

/-- C2: for `n = 5` every generator `e_i` (`i = 0..3` zero-based, the
spec's `e_1..e_4`) satisfies `e_i ∘ e_i == δ ⊗ e_i` (with
`δ = delta_polynomial [0,1]`, simplified and tensored onto the
generator as in the source's test harness) and
`e_i ∘ e_{i±1} ∘ e_i == e_i` for the valid neighbour indices, as
equality of simplified formal sums. -/
theorem temperley_lieb_relations_n5 :
    ∀ i ∈ [0, 1, 2, 3], ∀ j ∈ [i + 1, i - 1],
      (let E : Nat → BrauerMorphism ℤ := fun k => (temperleyLiebGens 5).getD k (identityB 0)
       ((composeB (E i) (E i)).toOption.map
          (fun m => brEqB (simplifyB m)
            (simplifyB (monoidalB (E i) (simplifyB (deltaPolynomial [0, 1]))))) = some true) ∧
       (j ≠ i → j < 4 →
         ((composeB (E i) (E j)).bind (fun z => composeB z (E i))).toOption.map
           (fun m => brEqB (simplifyB m) (simplifyB (E i))) = some true)) := by
  decide

/-- Witness for C2: the relation `e_1 e_2 e_1 = e_1` (zero-based
`e_0 e_1 e_0 = e_0`) as a concrete instance. -/
theorem temperley_lieb_relations_n5_witness :
    ((composeB ((temperleyLiebGens 5 (C := ℤ)).getD 0 (identityB 0))
        ((temperleyLiebGens 5 (C := ℤ)).getD 1 (identityB 0))).bind
      (fun z => composeB z ((temperleyLiebGens 5 (C := ℤ)).getD 0 (identityB 0)))).toOption.map
      (fun m => brEqB (simplifyB m)
        (simplifyB ((temperleyLiebGens 5 (C := ℤ)).getD 0 (identityB 0)))) = some true :=
  (temperley_lieb_relations_n5 0 (by decide) 1 (by decide)).2 (by decide) (by decide)

/-! ### Correctness of the class-merging component labelling -/

theorem conn_nil (i j : Nat) : conn [] i j ↔ i = j := by
  constructor
  · intro h
    induction h with
    | rel x y h => rcases h with h | h <;> cases h
    | refl x => rfl
    | symm x y _ ih => exact ih.symm
    | trans x y z _ _ ih1 ih2 => exact ih1.trans ih2
  · rintro rfl
    exact Relation.EqvGen.refl i

theorem conn_mono {E : List (Nat × Nat)} (e : Nat × Nat) {a b : Nat} (h : conn E a b) :
    conn (E ++ [e]) a b :=
  Relation.EqvGen.mono
    (fun a b hab => by
      rcases hab with hab | hab
      · exact Or.inl (List.mem_append_left _ hab)
      · exact Or.inr (List.mem_append_left _ hab))
    h

theorem conn_append_edge (E : List (Nat × Nat)) (e : Nat × Nat) (i j : Nat) :
    conn (E ++ [e]) i j ↔
      conn E i j ∨ (conn E i e.1 ∧ conn E e.2 j) ∨ (conn E i e.2 ∧ conn E e.1 j) := by
  constructor
  · intro h
    induction h with
    | rel x y hxy =>
      rcases hxy with hm | hm
      · rcases List.mem_append.mp hm with hm' | hm'
        · exact Or.inl (Relation.EqvGen.rel _ _ (Or.inl hm'))
        · have he : (x, y) = e := by simpa using hm'
          rw [Prod.ext_iff] at he
          refine Or.inr (Or.inl ⟨?_, ?_⟩)
          · rw [← he.1]; exact Relation.EqvGen.refl x
          · rw [← he.2]; exact Relation.EqvGen.refl y
      · rcases List.mem_append.mp hm with hm' | hm'
        · exact Or.inl (Relation.EqvGen.rel _ _ (Or.inr hm'))
        · have he : (y, x) = e := by simpa using hm'
          rw [Prod.ext_iff] at he
          refine Or.inr (Or.inr ⟨?_, ?_⟩)
          · rw [← he.2]; exact Relation.EqvGen.refl x
          · rw [← he.1]; exact Relation.EqvGen.refl y
    | refl x => exact Or.inl (Relation.EqvGen.refl x)
    | symm x y _ ih =>
      rcases ih with h | ⟨h1, h2⟩ | ⟨h1, h2⟩
      · exact Or.inl (Relation.EqvGen.symm _ _ h)
      · exact Or.inr (Or.inr ⟨Relation.EqvGen.symm _ _ h2, Relation.EqvGen.symm _ _ h1⟩)
      · exact Or.inr (Or.inl ⟨Relation.EqvGen.symm _ _ h2, Relation.EqvGen.symm _ _ h1⟩)
    | trans x y z _ _ ih1 ih2 =>
      rcases ih1 with a | ⟨a1, a2⟩ | ⟨a1, a2⟩ <;> rcases ih2 with b | ⟨b1, b2⟩ | ⟨b1, b2⟩
      · exact Or.inl (Relation.EqvGen.trans _ _ _ a b)
      · exact Or.inr (Or.inl ⟨Relation.EqvGen.trans _ _ _ a b1, b2⟩)
      · exact Or.inr (Or.inr ⟨Relation.EqvGen.trans _ _ _ a b1, b2⟩)
      · exact Or.inr (Or.inl ⟨a1, Relation.EqvGen.trans _ _ _ a2 b⟩)
      · exact Or.inr (Or.inl ⟨a1, b2⟩)
      · exact Or.inl (Relation.EqvGen.trans _ _ _ a1 b2)
      · exact Or.inr (Or.inr ⟨a1, Relation.EqvGen.trans _ _ _ a2 b⟩)
      · exact Or.inl (Relation.EqvGen.trans _ _ _ a1 b2)
      · exact Or.inr (Or.inr ⟨a1, b2⟩)
  · intro h
    have hedge : conn (E ++ [e]) e.1 e.2 :=
      Relation.EqvGen.rel _ _ (Or.inl (List.mem_append_right _ (List.mem_singleton.mpr rfl)))
    rcases h with h | ⟨h1, h2⟩ | ⟨h1, h2⟩
    · exact conn_mono e h
    · exact Relation.EqvGen.trans _ _ _ (conn_mono e h1)
        (Relation.EqvGen.trans _ _ _ hedge (conn_mono e h2))
    · exact Relation.EqvGen.trans _ _ _ (conn_mono e h1)
        (Relation.EqvGen.trans _ _ _ (Relation.EqvGen.symm _ _ hedge) (conn_mono e h2))

theorem goodLabels_init (n : Nat) : GoodLabels n [] (List.range n) := by
  have hget : ∀ i, i < n → (List.range n).getD i 0 = i := by
    intro i hi
    rw [List.getD_eq_getElem _ _ (by simpa using hi), List.getElem_range]
  refine ⟨List.length_range n, fun i hi => by rw [hget i hi]; exact hi, fun i j hi hj => ?_⟩
  rw [hget i hi, hget j hj, conn_nil]

theorem goodLabels_step {n : Nat} {E : List (Nat × Nat)} {labels : List Nat} (e : Nat × Nat)
    (hg : GoodLabels n E labels) (he1 : e.1 < n) (he2 : e.2 < n) :
    GoodLabels n (E ++ [e]) (mergeStep labels e) := by
  obtain ⟨hlen, hbound, hiff⟩ := hg
  have hstep : ∀ i, i < n → (mergeStep labels e).getD i 0 =
      (if labels.getD i 0 = labels.getD e.2 0 then labels.getD e.1 0 else labels.getD i 0) := by
    intro i hi
    unfold mergeStep
    rw [List.getD_eq_getElem _ _ (by rw [List.length_map, hlen]; exact hi), List.getElem_map,
      ← List.getD_eq_getElem labels 0 (by rw [hlen]; exact hi)]
  refine ⟨by unfold mergeStep; rw [List.length_map, hlen], ?_, ?_⟩
  · intro i hi
    rw [hstep i hi]
    split
    · exact hbound e.1 he1
    · exact hbound i hi
  · intro i j hi hj
    rw [hstep i hi, hstep j hj, conn_append_edge, ← hiff i j hi hj, ← hiff i e.1 hi he1,
      ← hiff e.2 j he2 hj, ← hiff i e.2 hi he2, ← hiff e.1 j he1 hj]
    split_ifs <;> constructor <;> intro h' <;> omega

theorem goodLabels_foldl {n : Nat} :
    ∀ (es E0 : List (Nat × Nat)) (labels : List Nat),
      (∀ e ∈ es, e.1 < n ∧ e.2 < n) → GoodLabels n E0 labels →
      GoodLabels n (E0 ++ es) (es.foldl mergeStep labels) := by
  intro es
  induction es with
  | nil => intro E0 labels _ hg; simpa using hg
  | cons e rest ih =>
    intro E0 labels hb hg
    have hstep := goodLabels_step e hg (hb e (List.mem_cons_self _ _)).1
      (hb e (List.mem_cons_self _ _)).2
    have := ih (E0 ++ [e]) (mergeStep labels e)
      (fun e' he' => hb e' (List.mem_cons_of_mem _ he')) hstep
    rw [List.foldl_cons]
    rw [List.append_assoc] at this
    simpa using this

theorem componentLabels_good (n : Nat) (edges : List (Nat × Nat))
    (hb : ∀ e ∈ edges, e.1 < n ∧ e.2 < n) :
    GoodLabels n edges (componentLabels n edges) := by
  have := goodLabels_foldl edges [] (List.range n) hb (goodLabels_init n)
  simpa [componentLabels] using this

theorem componentLabels_length (n : Nat) (edges : List (Nat × Nat)) :
    (componentLabels n edges).length = n := by
  suffices h : ∀ (es : List (Nat × Nat)) (labels : List Nat),
      (es.foldl mergeStep labels).length = labels.length by
    have := h edges (List.range n)
    rwa [List.length_range] at this
  intro es
  induction es with
  | nil => intro labels; rfl
  | cons e rest ih =>
    intro labels
    rw [List.foldl_cons, ih]
    unfold mergeStep
    rw [List.length_map]

theorem card_image_eq_of_eq_iff {α β γ : Type} [DecidableEq β] [DecidableEq γ]
    (s : Finset α) (f : α → β) (g : α → γ)
    (h : ∀ i ∈ s, ∀ j ∈ s, (f i = f j ↔ g i = g j)) :
    (s.image f).card = (s.image g).card := by
  have h1 : Finset.image Prod.fst (s.image (fun i => (f i, g i))) = s.image f := by
    rw [Finset.image_image]
    rfl
  have h2 : Finset.image Prod.snd (s.image (fun i => (f i, g i))) = s.image g := by
    rw [Finset.image_image]
    rfl
  have hinj1 : Set.InjOn Prod.fst
      ((s.image (fun i => (f i, g i)) : Finset (β × γ)) : Set (β × γ)) := by
    intro x hx y hy hxy
    rw [Finset.mem_coe, Finset.mem_image] at hx hy
    obtain ⟨i, hi, rfl⟩ := hx
    obtain ⟨j, hj, rfl⟩ := hy
    exact Prod.ext hxy ((h i hi j hj).mp hxy)
  have hinj2 : Set.InjOn Prod.snd
      ((s.image (fun i => (f i, g i)) : Finset (β × γ)) : Set (β × γ)) := by
    intro x hx y hy hxy
    rw [Finset.mem_coe, Finset.mem_image] at hx hy
    obtain ⟨i, hi, rfl⟩ := hx
    obtain ⟨j, hj, rfl⟩ := hy
    exact Prod.ext ((h i hi j hj).mpr hxy) hxy
  rw [← h1, ← h2, Finset.card_image_of_injOn hinj1, Finset.card_image_of_injOn hinj2]

theorem componentLabels_toFinset (n : Nat) (edges : List (Nat × Nat)) :
    (componentLabels n edges).toFinset =
      Finset.image (fun i : Fin n => (componentLabels n edges).getD i.val 0) Finset.univ := by
  ext x
  rw [List.mem_toFinset, Finset.mem_image]
  constructor
  · intro hx
    obtain ⟨⟨idx, hidx⟩, hget⟩ := List.mem_iff_get.mp hx
    have hidx' : idx < n := by rwa [componentLabels_length n edges] at hidx
    refine ⟨⟨idx, hidx'⟩, Finset.mem_univ _, ?_⟩
    rw [List.getD_eq_getElem _ _ hidx]
    simpa using hget
  · rintro ⟨i, _, rfl⟩
    have hi : i.val < (componentLabels n edges).length := by
      rw [componentLabels_length]
      exact i.isLt
    rw [List.getD_eq_getElem _ _ hi]
    exact List.getElem_mem _

theorem componentLabels_dedup_card (n : Nat) (edges : List (Nat × Nat))
    (hb : ∀ e ∈ edges, e.1 < n ∧ e.2 < n) :
    (componentLabels n edges).dedup.length = glueComponentCount n edges := by
  classical
  obtain ⟨hlen, hbound, hiff⟩ := componentLabels_good n edges hb
  rw [← List.card_toFinset, componentLabels_toFinset]
  have hcard := card_image_eq_of_eq_iff (Finset.univ : Finset (Fin n))
    (fun i => (componentLabels n edges).getD i.val 0)
    (fun i => Quotient.mk (connSetoid n edges) i)
    (fun i _ j _ => by
      rw [hiff i.val j.val i.isLt j.isLt]
      exact ⟨fun h => Quotient.sound h, fun h => Quotient.exact h⟩)
  rw [hcard]
  have hsurj : Function.Surjective (fun i : Fin n => Quotient.mk (connSetoid n edges) i) :=
    fun q => Quotient.exists_rep q
  haveI : Fintype (Quotient (connSetoid n edges)) := Quotient.fintype _
  rw [Finset.image_univ_of_surjective hsurj, Finset.card_univ, glueComponentCount,
    Nat.card_eq_fintype_card]

/-! ### Claim C1: the composite scalar power formula -/

/-- C1: gluing two tagged matchings `L`, `R` with `L.cod = R.dom` (and
in-range endpoints) produces the scalar power
`#components(glue graph) + pL + pR − (dL+cR)/2`, where the component
count is the number of `conn`-equivalence classes of the glue graph on
its `dL+cL+cR` nodes, and the result carries domain `dL` and codomain
`cR`. -/
theorem mul_epm_power_formula (L R : EPM) (h : L.cod = R.dom)
    (hL : ∀ p ∈ L.matching, p.1 < L.dom + L.cod ∧ p.2 < L.dom + L.cod)
    (hR : ∀ p ∈ R.matching, p.1 < R.dom + R.cod ∧ p.2 < R.dom + R.cod) :
    (mulEPM L R).pow =
      glueComponentCount (L.dom + L.cod + R.cod) (glueEdges L R) + L.pow + R.pow -
        (L.dom + R.cod) / 2 ∧
    (mulEPM L R).dom = L.dom ∧ (mulEPM L R).cod = R.cod := by
  refine ⟨?_, rfl, rfl⟩
  have hb : ∀ e ∈ glueEdges L R,
      e.1 < L.dom + L.cod + R.cod ∧ e.2 < L.dom + L.cod + R.cod := by
    intro e he
    unfold glueEdges at he
    rcases List.mem_append.mp he with he | he
    · have := hL e he
      omega
    · obtain ⟨p, hp, rfl⟩ := List.mem_map.mp he
      have := hR p hp
      rw [← h] at this
      simp only
      omega
  show (componentLabels (L.dom + L.cod + R.cod) (glueEdges L R)).dedup.length +
      L.pow + R.pow - (L.dom + R.cod) / 2 = _
  rw [componentLabels_dedup_card _ _ hb]

/-- Witness for C1: gluing the identity diagram on one strand with
itself. -/
theorem mul_epm_power_formula_witness :
    (mulEPM (EPM.mk 1 1 0 [(0, 1)]) (EPM.mk 1 1 0 [(0, 1)])).pow =
      glueComponentCount (1 + 1 + 1) (glueEdges (EPM.mk 1 1 0 [(0, 1)]) (EPM.mk 1 1 0 [(0, 1)])) +
        0 + 0 - (1 + 1) / 2 ∧
    (mulEPM (EPM.mk 1 1 0 [(0, 1)]) (EPM.mk 1 1 0 [(0, 1)])).dom = 1 ∧
    (mulEPM (EPM.mk 1 1 0 [(0, 1)]) (EPM.mk 1 1 0 [(0, 1)])).cod = 1 :=
  mul_epm_power_formula (EPM.mk 1 1 0 [(0, 1)]) (EPM.mk 1 1 0 [(0, 1)]) rfl
    (by decide) (by decide)

/-! ### The glue of two identity diagrams (for C3) -/

theorem mergeStep_map_range {n : Nat} (f : Nat → Nat) (e : Nat × Nat)
    (he1 : e.1 < n) (he2 : e.2 < n) :
    mergeStep ((List.range n).map f) e =
      (List.range n).map (fun j => if f j = f e.2 then f e.1 else f j) := by
  unfold mergeStep
  have hget : ∀ x, x < n → ((List.range n).map f).getD x 0 = f x := by
    intro x hx
    rw [List.getD_eq_getElem _ _ (by simpa using hx), List.getElem_map, List.getElem_range]
  rw [hget e.1 he1, hget e.2 he2, List.map_map]
  rfl

theorem idGlue_phase1 (n : Nat) :
    ∀ k, k ≤ n →
      ((List.range k).map (fun i => (i, i + n))).foldl mergeStep (List.range (n + n + n)) =
        (List.range (n + n + n)).map (fun j => if n ≤ j ∧ j < n + k then j - n else j) := by
  intro k
  induction k with
  | zero =>
    intro _
    symm
    have h := List.map_congr_left (l := List.range (n + n + n))
      (f := fun j => if n ≤ j ∧ j < n + 0 then j - n else j) (g := id)
      (fun j _ => by
        show (if n ≤ j ∧ j < n + 0 then j - n else j) = j
        rw [if_neg (by omega)])
    rw [h, List.map_id, List.range_zero, List.map_nil, List.foldl_nil]
  | succ k ih =>
    intro hk
    rw [List.range_succ, List.map_append, List.foldl_append, ih (by omega), List.map_cons,
      List.map_nil, List.foldl_cons, List.foldl_nil,
      mergeStep_map_range _ (k, k + n) (by omega) (by omega)]
    apply List.map_congr_left
    intro j hj
    rw [List.mem_range] at hj
    dsimp only
    split_ifs <;> omega

theorem idGlue_phase2 (n : Nat) :
    ∀ k, k ≤ n →
      ((List.range k).map (fun i => (i + n, i + n + n))).foldl mergeStep
          ((List.range (n + n + n)).map (fun j => if n ≤ j ∧ j < n + n then j - n else j)) =
        (List.range (n + n + n)).map
          (fun j => if n ≤ j ∧ j < n + n then j - n
                    else if n + n ≤ j ∧ j < n + n + k then j - (n + n) else j) := by
  intro k
  induction k with
  | zero =>
    intro _
    rw [List.range_zero, List.map_nil, List.foldl_nil]
    apply List.map_congr_left
    intro j hj
    rw [List.mem_range] at hj
    dsimp only
    split_ifs <;> omega
  | succ k ih =>
    intro hk
    rw [List.range_succ, List.map_append, List.foldl_append, ih (by omega), List.map_cons,
      List.map_nil, List.foldl_cons, List.foldl_nil,
      mergeStep_map_range _ (k + n, k + n + n) (by omega) (by omega)]
    apply List.map_congr_left
    intro j hj
    rw [List.mem_range] at hj
    dsimp only
    split_ifs <;> omega

theorem idGlue_labels (n : Nat) :
    componentLabels (n + n + n)
        (glueEdges (EPM.mk n n 0 (idMatching n)) (EPM.mk n n 0 (idMatching n))) =
      (List.range (n + n + n)).map
        (fun j => if n ≤ j ∧ j < n + n then j - n
                  else if n + n ≤ j ∧ j < n + n + n then j - (n + n) else j) := by
  have hedges : glueEdges (EPM.mk n n 0 (idMatching n)) (EPM.mk n n 0 (idMatching n)) =
      (List.range n).map (fun i => (i, i + n)) ++
        (List.range n).map (fun i => (i + n, i + n + n)) := by
    unfold glueEdges
    dsimp only
    rw [idMatching_eq, List.map_map]
    rfl
  rw [hedges]
  unfold componentLabels
  rw [List.foldl_append, idGlue_phase1 n n le_rfl, idGlue_phase2 n n le_rfl]

theorem contains_iff_mem {l : List Nat} {a : Nat} : l.contains a = true ↔ a ∈ l :=
  List.elem_iff

theorem greedyStep_skip {reach : Nat → Nat → Bool} {endpoints : Nat}
    {st : List Nat × List (Nat × Nat)} {i : Nat} (h : i ∈ st.1) :
    greedyStep reach endpoints st i = st := by
  unfold greedyStep
  rw [if_pos (contains_iff_mem.mpr h)]

theorem foldl_greedyStep_skip (reach : Nat → Nat → Bool) (endpoints : Nat) :
    ∀ (js : List Nat) (st : List Nat × List (Nat × Nat)),
      (∀ j ∈ js, j ∈ st.1) → js.foldl (greedyStep reach endpoints) st = st := by
  intro js
  induction js with
  | nil => intro st _; rfl
  | cons j rest ih =>
    intro st h
    rw [List.foldl_cons, greedyStep_skip (h j (List.mem_cons_self _ _))]
    exact ih st (fun j' hj' => h j' (List.mem_cons_of_mem _ hj'))


theorem greedy_phaseA (n : Nat) (reach : Nat → Nat → Bool)
    (hreach : ∀ i j, i < n + n → j < n + n →
      (reach i j = true ↔ (if i < n then i else i - n) = (if j < n then j else j - n))) :
    ∀ k, k ≤ n →
      (List.range k).foldl (greedyStep reach (n + n)) ([], []) =
        ((List.range k).reverse.flatMap (fun i => [i, i + n]),
         (List.range k).map (fun i => (i, i + n))) := by
  intro k
  induction k with
  | zero => intro _; rfl
  | succ k ih =>
    intro hk
    have hklt : k < n := by omega
    rw [List.range_succ, List.foldl_append, ih (by omega), List.foldl_cons, List.foldl_nil]
    have hmem : ∀ x, x ∈ (List.range k).reverse.flatMap (fun i => [i, i + n]) ↔
        (x < k ∨ (n ≤ x ∧ x < n + k)) := by
      intro x
      rw [List.mem_flatMap]
      constructor
      · rintro ⟨i, hi, hx⟩
        rw [List.mem_reverse, List.mem_range] at hi
        rcases List.mem_cons.mp hx with rfl | hx'
        · omega
        · rw [List.mem_singleton.mp hx']
          omega
      · intro hx
        rcases hx with hx | hx
        · exact ⟨x, by rw [List.mem_reverse, List.mem_range]; omega, List.mem_cons_self _ _⟩
        · refine ⟨x - n, by rw [List.mem_reverse, List.mem_range]; omega, ?_⟩
          have hxx : x - n + n = x := by omega
          rw [hxx]
          exact List.mem_cons_of_mem _ (List.mem_singleton.mpr rfl)
    have hnone : (List.range' (k + 1) (n - 1)).find? (fun j => reach k j) = none := by
      rw [List.find?_eq_none]
      intro j hj hcontra
      rw [List.mem_range'] at hj
      obtain ⟨i, hi, rfl⟩ := hj
      have hc2 : reach k (k + 1 + 1 * i) = true := hcontra
      rw [hreach k (k + 1 + 1 * i) (by omega) (by omega)] at hc2
      split_ifs at hc2 <;> omega
    have hsome : (List.range' (k + n) (n - k)).find? (fun j => reach k j) = some (k + n) := by
      rw [show n - k = (n - k - 1) + 1 by omega, List.range'_succ]
      apply List.find?_cons_of_pos
      show reach k (k + n) = true
      rw [hreach k (k + n) (by omega) (by omega)]
      split_ifs <;> omega
    have hsplit : List.range' (k + 1) (n + n - (k + 1)) =
        List.range' (k + 1) (n - 1) ++ List.range' (k + n) (n - k) := by
      have h0 := List.range'_append (k + 1) (n - 1) (n - k) 1
      rw [show (k + 1) + 1 * (n - 1) = k + n by omega,
        show (n - k) + (n - 1) = n + n - (k + 1) by omega] at h0
      exact h0.symm
    unfold greedyStep
    have hnotin : ¬ (((List.range k).reverse.flatMap (fun i => [i, i + n])).contains k = true) := by
      rw [contains_iff_mem, hmem]
      omega
    rw [if_neg hnotin, hsplit]
    simp only [List.find?_append, hnone, Option.none_or, hsome]
    rw [Prod.ext_iff]
    constructor
    · show k :: (k + n) :: _ = _
      rw [List.reverse_append, List.reverse_singleton, List.flatMap_append,
        List.flatMap_cons, List.flatMap_nil, List.append_nil]
      rfl
    · show _ ++ [(k, k + n)] = _
      rw [List.map_append]
      rfl

theorem greedy_id (n : Nat) (reach : Nat → Nat → Bool)
    (hreach : ∀ i j, i < n + n → j < n + n →
      (reach i j = true ↔ (if i < n then i else i - n) = (if j < n then j else j - n))) :
    greedyLoop reach (n + n) = (List.range n).map (fun i => (i, i + n)) := by
  unfold greedyLoop
  rw [List.range_add, List.foldl_append, greedy_phaseA n reach hreach n le_rfl]
  have hskip : ∀ j ∈ (List.range n).map (fun x => n + x),
      j ∈ (((List.range n).reverse.flatMap (fun i => [i, i + n]),
            (List.range n).map (fun i => (i, i + n))) :
          List Nat × List (Nat × Nat)).1 := by
    intro j hj
    obtain ⟨x, hx, rfl⟩ := List.mem_map.mp hj
    rw [List.mem_range] at hx
    show n + x ∈ (List.range n).reverse.flatMap (fun i => [i, i + n])
    rw [List.mem_flatMap]
    refine ⟨x, by rw [List.mem_reverse, List.mem_range]; exact hx, ?_⟩
    have hxx : n + x = x + n := by omega
    rw [hxx]
    exact List.mem_cons_of_mem _ (List.mem_singleton.mpr rfl)
  rw [foldl_greedyStep_skip reach (n + n) (List.range n |>.map (fun x => n + x)) _ hskip]

theorem mul_epm_id (n : Nat) :
    mulEPM (EPM.mk n n 0 (idMatching n)) (EPM.mk n n 0 (idMatching n)) =
      EPM.mk n n 0 (idMatching n) := by
  have hget : ∀ x, x < n + n + n →
      (componentLabels (n + n + n)
          (glueEdges (EPM.mk n n 0 (idMatching n)) (EPM.mk n n 0 (idMatching n)))).getD x 0 =
        (if n ≤ x ∧ x < n + n then x - n
         else if n + n ≤ x ∧ x < n + n + n then x - (n + n) else x) := by
    intro x hx
    rw [idGlue_labels n, List.getD_eq_getElem _ _ (by simpa using hx), List.getElem_map,
      List.getElem_range]
  have hval : ∀ x, x < n + n →
      (componentLabels (n + n + n)
          (glueEdges (EPM.mk n n 0 (idMatching n)) (EPM.mk n n 0 (idMatching n)))).getD
        (nodeOfBoundary n n x) 0 = (if x < n then x else x - n) := by
    intro x hx
    unfold nodeOfBoundary
    by_cases hxn : x < n
    · rw [if_pos hxn, if_pos hxn, hget x (by omega), if_neg (by omega), if_neg (by omega)]
    · rw [if_neg hxn, if_neg hxn, hget (x + n) (by omega), if_neg (by omega),
        if_pos (by omega)]
      omega
  have hreach : ∀ i j, i < n + n → j < n + n →
      (((componentLabels (n + n + n)
            (glueEdges (EPM.mk n n 0 (idMatching n)) (EPM.mk n n 0 (idMatching n)))).getD
          (nodeOfBoundary n n i) 0 ==
        (componentLabels (n + n + n)
            (glueEdges (EPM.mk n n 0 (idMatching n)) (EPM.mk n n 0 (idMatching n)))).getD
          (nodeOfBoundary n n j) 0) = true ↔
        (if i < n then i else i - n) = (if j < n then j else j - n)) := by
    intro i j hi hj
    rw [hval i hi, hval j hj, beq_iff_eq]
  have hpow : (componentLabels (n + n + n)
        (glueEdges (EPM.mk n n 0 (idMatching n)) (EPM.mk n n 0 (idMatching n)))).dedup.length +
      0 + 0 - (n + n) / 2 = 0 := by
    have hfin : ((List.range (n + n + n)).map
        (fun j => if n ≤ j ∧ j < n + n then j - n
                  else if n + n ≤ j ∧ j < n + n + n then j - (n + n) else j)).toFinset =
        Finset.range n := by
      ext x
      rw [List.mem_toFinset, List.mem_map, Finset.mem_range]
      constructor
      · rintro ⟨j, hj, rfl⟩
        rw [List.mem_range] at hj
        split_ifs <;> omega
      · intro hx
        exact ⟨x, List.mem_range.mpr (by omega), by rw [if_neg (by omega), if_neg (by omega)]⟩
    have hlen : ((List.range (n + n + n)).map
        (fun j => if n ≤ j ∧ j < n + n then j - n
                  else if n + n ≤ j ∧ j < n + n + n then j - (n + n) else j)).dedup.length = n := by
      rw [← List.card_toFinset, hfin, Finset.card_range]
    rw [idGlue_labels n, hlen]
    omega
  have hmatch : canonicalize (greedyLoop
      (fun i j =>
        (componentLabels (n + n + n)
            (glueEdges (EPM.mk n n 0 (idMatching n)) (EPM.mk n n 0 (idMatching n)))).getD
          (nodeOfBoundary n n i) 0 ==
        (componentLabels (n + n + n)
            (glueEdges (EPM.mk n n 0 (idMatching n)) (EPM.mk n n 0 (idMatching n)))).getD
          (nodeOfBoundary n n j) 0) (n + n)) = idMatching n := by
    rw [greedy_id n _ hreach]
    rfl
  show EPM.mk n n
      ((componentLabels (n + n + n)
          (glueEdges (EPM.mk n n 0 (idMatching n)) (EPM.mk n n 0 (idMatching n)))).dedup.length +
        0 + 0 - (n + n) / 2)
      (canonicalize (greedyLoop
        (fun i j =>
          (componentLabels (n + n + n)
              (glueEdges (EPM.mk n n 0 (idMatching n)) (EPM.mk n n 0 (idMatching n)))).getD
            (nodeOfBoundary n n i) 0 ==
          (componentLabels (n + n + n)
              (glueEdges (EPM.mk n n 0 (idMatching n)) (EPM.mk n n 0 (idMatching n)))).getD
            (nodeOfBoundary n n j) 0) (n + n))) =
    EPM.mk n n 0 (idMatching n)
  rw [EPM.mk.injEq]
  exact ⟨rfl, rfl, hpow, hmatch⟩

/-! ### Claim C3: no spurious loops when composing identities -/

/-- C3: for every `n`, composing `identity n` with itself yields a
morphism with the single term `(power 0, identity matching)` and
coefficient one — no closed component exists, so no spurious loop is
counted. -/
theorem compose_identity_identity {C : Type} [DecidableEq C] [CommRing C] (n : Nat) :
    composeB (identityB n : BrauerMorphism C) (identityB n) =
      Except.ok
        { diagram := [((0, idMatching n), (1 : C))]
          source := n
          target := n
          is_def_tl := true } := by
  rw [composeB_ok _ _ rfl]
  simp only [identityB, lcSingleton, List.map_cons, List.map_nil, lcCombine, List.foldl_cons,
    List.foldl_nil, lcScale, lcAdd, lcInsertAdd, List.any_nil, Bool.false_eq_true,
    List.nil_append, lcMapKeysAdd, mul_epm_id, one_mul, mul_one, Bool.and_self, if_false]

/-! ### Claim C7: the adjoint is an involution -/

theorem pairSort_swap (a b : Nat) : pairSort (a, b) = pairSort (b, a) := by
  unfold pairSort
  split_ifs <;> (rw [Prod.ext_iff]; constructor <;> simp <;> omega)

theorem canonicalize_map_pairMap (g : Nat → Nat) (l : List (Nat × Nat)) :
    canonicalize ((canonicalize l).map (pairMap g)) = canonicalize (l.map (pairMap g)) := by
  rw [canonicalize_perm_of_perm ((canonicalize_perm l).map (pairMap g))]
  unfold canonicalize
  simp only [List.map_map]
  congr 1
  apply List.map_congr_left
  intro p _
  show pairSort (pairMap g (pairSort p)) = pairSort (pairMap g p)
  have hps : pairSort p = if p.1 < p.2 then p else (p.2, p.1) := rfl
  by_cases h : p.1 < p.2
  · rw [hps, if_pos h]
  · rw [hps, if_neg h]
    show pairSort (g p.2, g p.1) = pairSort (pairMap g p)
    rw [pairSort_swap]
    rfl

theorem pmFlip_flip {s t : Nat} {l : List (Nat × Nat)}
    (hb : ∀ p ∈ l, p.1 < s + t ∧ p.2 < s + t) (hc : canonicalize l = l) :
    pmFlip (pmFlip l s t) t s = l := by
  show canonicalize ((canonicalize (l.map (pairFlip s t))).map (pairFlip t s)) = l
  have h1 : (pairFlip t s) = pairMap (fun v => if v < t then v + s else v - t) := rfl
  have h2 : (pairFlip s t) = pairMap (fun v => if v < s then v + t else v - s) := rfl
  rw [h1, h2, canonicalize_map_pairMap, List.map_map]
  have hid : ∀ p ∈ l, (pairMap (fun v => if v < t then v + s else v - t) ∘
      pairMap (fun v => if v < s then v + t else v - s)) p = p := by
    intro p hp
    obtain ⟨hp1, hp2⟩ := hb p hp
    show pairMap _ (pairMap _ p) = p
    unfold pairMap
    rw [Prod.ext_iff]
    constructor <;> dsimp only <;> split_ifs <;> omega
  rw [List.map_congr_left hid, List.map_id']
  exact hc

theorem brEqB_refl {C : Type} [DecidableEq C] (f : BrauerMorphism C) : brEqB f f = true := by
  unfold brEqB lcEqB
  simp

/-- C7: for every well-formed morphism (canonical matchings with
endpoints inside `[0, source+target)`) and every involutive coefficient
map, applying `dagger` twice returns the original morphism: the double
flip restores every matching and `source`/`target` swap back. -/
theorem dagger_involution {C : Type} [DecidableEq C] [CommRing C] :
    ∀ (f : BrauerMorphism C) (conj : C → C),
      (∀ c, conj (conj c) = c) →
      (∀ kc ∈ f.diagram,
        (∀ p ∈ kc.1.2, p.1 < f.source + f.target ∧ p.2 < f.source + f.target) ∧
        canonicalize kc.1.2 = kc.1.2) →
      daggerB (daggerB f conj) conj = f ∧
      brEqB (daggerB (daggerB f conj) conj) f = true := by
  intro f conj hconj hwf
  have hrec : daggerB (daggerB f conj) conj = f := by
    obtain ⟨d, s, t, b⟩ := f
    simp only [daggerB, lcChangeCoeffs, List.map_map]
    rw [BrauerMorphism.mk.injEq]
    refine ⟨?_, rfl, rfl, rfl⟩
    have hid : ∀ kc ∈ d,
        ((fun kc => (kc.1, conj kc.2)) ∘ (fun kc => ((kc.1.1, pmFlip kc.1.2 t s), kc.2)) ∘
          (fun kc => (kc.1, conj kc.2)) ∘
          (fun kc : (Nat × List (Nat × Nat)) × C => ((kc.1.1, pmFlip kc.1.2 s t), kc.2))) kc
          = kc := by
      intro kc hkc
      obtain ⟨hb', hc'⟩ := hwf kc hkc
      show ((kc.1.1, pmFlip (pmFlip kc.1.2 s t) t s), conj (conj kc.2)) = kc
      rw [pmFlip_flip hb' hc', hconj]
    rw [List.map_congr_left hid, List.map_id']
  exact ⟨hrec, by rw [hrec]; exact brEqB_refl f⟩

/-- Witness for C7 at the cap-cup generator on two strands with the
identity involution. -/
theorem dagger_involution_witness :
    brEqB (daggerB (daggerB (tlGen 2 0 : BrauerMorphism ℤ) id) id) (tlGen 2 0) = true :=
  (dagger_involution (tlGen 2 0) id (fun _ => rfl) (by decide)).2

/-! ### Claim C8: module laws of the formal sums -/

theorem lcLookup_append {K C : Type} [DecidableEq K] (l1 l2 : List (K × C)) (k : K) :
    lcLookup (l1 ++ l2) k = (lcLookup l1 k).or (lcLookup l2 k) := by
  induction l1 with
  | nil => simp [lcLookup]
  | cons kc rest ih => by_cases h : kc.1 = k <;> simp [lcLookup, h, ih]

theorem lcLookup_map_modify {K C : Type} [DecidableEq K] [Add C] (l : List (K × C))
    (k k' : K) (v : C) :
    lcLookup (l.map (fun kc => if kc.1 = k then (kc.1, kc.2 + v) else kc)) k' =
      if k' = k then (lcLookup l k').map (fun c => c + v) else lcLookup l k' := by
  induction l with
  | nil => simp [lcLookup]
  | cons kc rest ih =>
    simp only [List.map_cons]
    by_cases h2 : kc.1 = k'
    · subst h2
      by_cases h1 : kc.1 = k
      · rw [if_pos h1]
        simp [lcLookup, h1]
      · rw [if_neg h1]
        simp [lcLookup, h1]
    · by_cases h1 : kc.1 = k
      · rw [if_pos h1]
        simp [lcLookup, h2, ih]
      · rw [if_neg h1]
        simp [lcLookup, h2, ih]

theorem lcLookup_isSome_of_any {K C : Type} [DecidableEq K] {l : List (K × C)} {k : K}
    (h : l.any (fun kc => decide (kc.1 = k)) = true) : ∃ c, lcLookup l k = some c := by
  induction l with
  | nil => simp at h
  | cons kc rest ih =>
    by_cases h1 : kc.1 = k
    · exact ⟨kc.2, by simp [lcLookup, h1]⟩
    · rw [List.any_cons, Bool.or_eq_true] at h
      rcases h with h | h
      · simp [h1] at h
      · obtain ⟨c, hc⟩ := ih h
        exact ⟨c, by simp [lcLookup, h1, hc]⟩

theorem lcLookup_insertAdd {K C : Type} [DecidableEq K] [Add C] (l : List (K × C))
    (k k' : K) (v : C) :
    lcLookup (lcInsertAdd l k v) k' =
      if k' = k then
        (match lcLookup l k with
         | some c => some (c + v)
         | none => some v)
      else lcLookup l k' := by
  unfold lcInsertAdd
  by_cases hany : l.any (fun kc => decide (kc.1 = k)) = true
  · rw [if_pos hany, lcLookup_map_modify]
    by_cases hk : k' = k
    · rw [if_pos hk, if_pos hk, hk]
      obtain ⟨c, hc⟩ := lcLookup_isSome_of_any hany
      rw [hc]
      rfl
    · rw [if_neg hk, if_neg hk]
  · rw [if_neg hany, lcLookup_append]
    have hnone : lcLookup l k = none := by
      apply lcLookup_eq_none
      intro kc hkc hcon
      exact hany (List.any_eq_true.mpr ⟨kc, hkc, decide_eq_true hcon⟩)
    by_cases hk : k' = k
    · rw [if_pos hk, hk, hnone]
      simp [lcLookup]
    · rw [if_neg hk]
      have hsing : lcLookup [(k, v)] k' = none := by
        unfold lcLookup
        rw [if_neg (fun h => hk h.symm)]
        rfl
      rw [hsing, Option.or_none]

theorem lcInsertAdd_nodupKeys {K C : Type} [DecidableEq K] [Add C] {l : List (K × C)}
    (k : K) (v : C) (h : (l.map Prod.fst).Nodup) :
    ((lcInsertAdd l k v).map Prod.fst).Nodup := by
  unfold lcInsertAdd
  split_ifs with hany
  · have heq : (l.map (fun kc => if kc.1 = k then (kc.1, kc.2 + v) else kc)).map Prod.fst =
        l.map Prod.fst := by
      rw [List.map_map]
      apply List.map_congr_left
      intro kc _
      show (if kc.1 = k then (kc.1, kc.2 + v) else kc).1 = kc.1
      split_ifs <;> rfl
    rw [heq]
    exact h
  · rw [List.map_append]
    refine h.append (List.nodup_singleton k) ?_
    intro x hx hmem
    rw [show List.map Prod.fst [(k, v)] = [k] from rfl, List.mem_singleton] at hmem
    subst hmem
    obtain ⟨kc, hkc, hfst⟩ := List.mem_map.mp hx
    exact hany (List.any_eq_true.mpr ⟨kc, hkc, decide_eq_true hfst⟩)

theorem lcAdd_nodupKeys {K C : Type} [DecidableEq K] [Add C] :
    ∀ (b a : List (K × C)), (a.map Prod.fst).Nodup → ((lcAdd a b).map Prod.fst).Nodup := by
  intro b
  induction b with
  | nil => intro a h; exact h
  | cons kc rest ih => intro a h; exact ih _ (lcInsertAdd_nodupKeys _ _ h)

theorem lcLookup_lcAdd {K C : Type} [DecidableEq K] [Add C] :
    ∀ (b a : List (K × C)), (b.map Prod.fst).Nodup → ∀ k,
      lcLookup (lcAdd a b) k =
        match lcLookup a k, lcLookup b k with
        | some x, some y => some (x + y)
        | some x, none => some x
        | none, some y => some y
        | none, none => none := by
  intro b
  induction b with
  | nil =>
    intro a _ k
    show lcLookup a k = _
    cases lcLookup a k <;> rfl
  | cons kc rest ih =>
    intro a hnod k
    rw [List.map_cons, List.nodup_cons] at hnod
    show lcLookup (lcAdd (lcInsertAdd a kc.1 kc.2) rest) k = _
    rw [ih _ hnod.2 k, lcLookup_insertAdd]
    by_cases hk : k = kc.1
    · rw [if_pos hk, hk]
      have hrest : lcLookup rest kc.1 = none := by
        apply lcLookup_eq_none
        intro kc' hkc' hcon
        exact hnod.1 (hcon ▸ List.mem_map.mpr ⟨kc', hkc', rfl⟩)
      rw [hrest]
      have hhead : lcLookup (kc :: rest) kc.1 = some kc.2 := by
        have hh : lcLookup (kc :: rest) kc.1 =
            if kc.1 = kc.1 then some kc.2 else lcLookup rest kc.1 := rfl
        rw [hh, if_pos rfl]
      rw [hhead]
      cases lcLookup a kc.1 <;> rfl
    · rw [if_neg hk]
      have hhead : lcLookup (kc :: rest) k = lcLookup rest k := by
        have hh : lcLookup (kc :: rest) k =
            if kc.1 = k then some kc.2 else lcLookup rest k := rfl
        rw [hh, if_neg (fun h => hk h.symm)]
      rw [hhead]

theorem lcLookup_neg {K C : Type} [DecidableEq K] [Neg C] (a : List (K × C)) (k : K) :
    lcLookup (lcNeg a) k = (lcLookup a k).map (fun c => -c) := by
  induction a with
  | nil => rfl
  | cons kc rest ih =>
    have hstep : lcNeg (kc :: rest) = (kc.1, -kc.2) :: lcNeg rest := rfl
    rw [hstep]
    by_cases h : kc.1 = k <;> simp [lcLookup, h, ih]

theorem lcNeg_keys {K C : Type} [DecidableEq K] [Neg C] (a : List (K × C)) :
    (lcNeg a).map Prod.fst = a.map Prod.fst := by
  unfold lcNeg
  rw [List.map_map]
  rfl

theorem lcLookup_of_mem_nodup {K C : Type} [DecidableEq K] {l : List (K × C)}
    (h : (l.map Prod.fst).Nodup) {kv : K × C} (hm : kv ∈ l) : lcLookup l kv.1 = some kv.2 := by
  induction l with
  | nil => cases hm
  | cons kc rest ih =>
    rw [List.map_cons, List.nodup_cons] at h
    rcases List.mem_cons.mp hm with rfl | hm'
    · simp [lcLookup]
    · have hne : kc.1 ≠ kv.1 := by
        intro hcon
        exact h.1 (hcon ▸ List.mem_map.mpr ⟨kv, hm', rfl⟩)
      simp [lcLookup, hne, ih h.2 hm']

theorem lcSimplify_lookup_aux {K C : Type} [DecidableEq K] [DecidableEq C] [Zero C] :
    ∀ {a : List (K × C)}, (a.map Prod.fst).Nodup → ∀ k,
      lcLookup (lcSimplify a) k =
        match lcLookup a k with
        | some c => if c = 0 then none else some c
        | none => none := by
  intro a
  induction a with
  | nil => intro _ k; rfl
  | cons kc rest ih =>
    intro hnod k
    rw [List.map_cons, List.nodup_cons] at hnod
    by_cases hz : kc.2 = 0
    · have hstep : lcSimplify (kc :: rest) = lcSimplify rest := by
        unfold lcSimplify
        rw [List.filter_cons]
        simp [hz]
      rw [hstep, ih hnod.2 k]
      by_cases hk : kc.1 = k
      · have hrest : lcLookup rest k = none := by
          apply lcLookup_eq_none
          intro kc' hkc' hcon
          exact hnod.1 ((hk.trans hcon.symm) ▸ List.mem_map.mpr ⟨kc', hkc', rfl⟩)
        rw [hrest]
        simp [lcLookup, hk, hz]
      · simp [lcLookup, hk]
    · have hstep : lcSimplify (kc :: rest) = kc :: lcSimplify rest := by
        unfold lcSimplify
        rw [List.filter_cons]
        simp [hz]
      rw [hstep]
      by_cases hk : kc.1 = k
      · simp [lcLookup, hk, hz]
      · simp [lcLookup, hk, ih hnod.2 k]

/-- C8: over any commutative ring of coefficients, the formal sums
satisfy the module laws — addition is commutative (after simplify, and
even extensionally before) and associative, `a + (-a)` simplifies to the
empty sum, and scaling by one is the identity.  The `Nodup` hypotheses
are the `HashMap` key-uniqueness invariant of the representation. -/
theorem module_laws {K C : Type} [DecidableEq K] [DecidableEq C] [CommRing C] :
    ∀ a b c : List (K × C),
      (a.map Prod.fst).Nodup → (b.map Prod.fst).Nodup → (c.map Prod.fst).Nodup →
      (lcEq (lcSimplify (lcAdd a b)) (lcSimplify (lcAdd b a)) ∧
       lcEq (lcAdd (lcAdd a b) c) (lcAdd a (lcAdd b c)) ∧
       lcSimplify (lcAdd a (lcNeg a)) = [] ∧
       lcScale 1 a = a) := by
  intro a b c ha hb hc
  refine ⟨?_, ?_, ?_, ?_⟩
  · intro k
    rw [lcSimplify_lookup_aux (lcAdd_nodupKeys b a ha) k,
      lcSimplify_lookup_aux (lcAdd_nodupKeys a b hb) k,
      lcLookup_lcAdd b a hb k, lcLookup_lcAdd a b ha k]
    cases lcLookup a k <;> cases lcLookup b k <;> simp [add_comm]
  · intro k
    rw [lcLookup_lcAdd c (lcAdd a b) hc k, lcLookup_lcAdd (lcAdd b c) a (lcAdd_nodupKeys c b hb) k,
      lcLookup_lcAdd b a hb k, lcLookup_lcAdd c b hc k]
    cases lcLookup a k <;> cases lcLookup b k <;> cases lcLookup c k <;> simp [add_assoc]
  · rw [lcSimplify, List.filter_eq_nil_iff]
    intro kv hkv
    have hlook := lcLookup_of_mem_nodup (lcAdd_nodupKeys (lcNeg a) a ha) hkv
    rw [lcLookup_lcAdd (lcNeg a) a (by rw [lcNeg_keys]; exact ha) kv.1, lcLookup_neg] at hlook
    cases hla : lcLookup a kv.1 with
    | none => rw [hla] at hlook; simp at hlook
    | some x =>
      rw [hla] at hlook
      have hx : x + -x = kv.2 := by
        simpa using hlook
      have h0 : kv.2 = 0 := by rw [← hx, add_neg_cancel]
      simp [h0]
  · unfold lcScale
    have hid : ∀ kc ∈ a, (fun kc : K × C => (kc.1, kc.2 * 1)) kc = id kc := by
      intro kc _
      show (kc.1, kc.2 * 1) = kc
      rw [mul_one]
    rw [List.map_congr_left hid, List.map_id]

/-- Witness for C8 at concrete sums over `ℕ` keys and `ℤ` coefficients. -/
theorem module_laws_witness :
    lcSimplify (lcAdd [((0 : Nat), (1 : ℤ))] (lcNeg [((0 : Nat), (1 : ℤ))])) = [] :=
  (module_laws [(0, 1)] [(1, 2)] [(0, 3)] (by decide) (by decide) (by decide)).2.2.1
